import Mathlib

/-!
Verification of the unicode-line-stacker library (src/lib.rs).

The library is a codec between 16 single-weight Unicode box-drawing
characters and 4-bit direction masks, plus a `stack` operation that
overlays two such characters by OR-ing their masks.

Embedding conventions:
* Rust `usize`/`u32` values become `Nat` (the functions' behaviour depends
  only on the numeric value, never on the word width).
* Fallible outcomes are explicit: a Rust panic is `Except.error`, a normal
  return is `Except.ok`.  `Option` return values stay `Option`.
* `LINE_DRAWING_CHARS[i]` (Rust array indexing, which panics out of
  bounds) is `indexChars i`, which returns `Except.error` out of bounds.
* The iterator chain `iter().enumerate().find(..).map(..)` in
  `char_to_bits` is the linear scan `findIdxFrom`, which returns the index
  of the first (here: only) matching character.
-/

namespace UnicodeLineStacker

/-- The constant `LINE_DRAWING_CHARS: [char; 16]` from src/lib.rs: entry at
index `m` is the character whose segment mask is `m`. -/
def LINE_DRAWING_CHARS : List Char :=
  [ ' ',        -- 0000
    '╵',   -- 0001
    '╶',   -- 0010
    '└',   -- 0011
    '╷',   -- 0100
    '│',   -- 0101
    '┌',   -- 0110
    '├',   -- 0111
    '╴',   -- 1000
    '┘',   -- 1001
    '─',   -- 1010
    '┴',   -- 1011
    '┐',   -- 1100
    '┤',   -- 1101
    '┬',   -- 1110
    '┼'    -- 1111
  ]

/-- Rust array indexing `LINE_DRAWING_CHARS[i]`: the element when `i` is in
bounds, a panic (modelled as `Except.error`) otherwise. -/
def indexChars (i : Nat) : Except String Char :=
  if h : i < LINE_DRAWING_CHARS.length then
    Except.ok (LINE_DRAWING_CHARS.get ⟨i, h⟩)
  else
    Except.error "index out of bounds"

/-- The scan `iter().enumerate().find(|&(_, &c2)| c == c2).map(|tup| tup.0)`:
index (counting from `i`) of the first element equal to `c`. -/
def findIdxFrom (c : Char) : List Char → Nat → Option Nat
  | [], _ => none
  | c2 :: rest, i => if c = c2 then some i else findIdxFrom c rest (i + 1)

/-- `char_to_bits` from src/lib.rs: linear scan of `LINE_DRAWING_CHARS` for
`c`, returning the matching index as the mask, or `none`. -/
def char_to_bits (c : Char) : Option Nat :=
  findIdxFrom c LINE_DRAWING_CHARS 0

/-- `bits_to_char` from src/lib.rs: panics (returns `Except.error` with a
message naming the value) when `bits ≥ 16`, otherwise indexes the table. -/
def bits_to_char (bits : Nat) : Except String Char :=
  if bits ≥ 16 then
    Except.error ("Bit set must be between 0 and 15 inclusive but got " ++ toString bits)
  else
    indexChars bits

/-- `stack` from src/lib.rs.  Note the guard is exactly the source's
`look_for_b.is_none() || look_for_b.is_none()` (it tests `look_for_b`
twice); when the guard fails, the source unwraps both options, which
panics (`Except.error`) if `look_for_a` is `none`. -/
def stack (a b : Char) : Except String (Option Char) :=
  let look_for_a := char_to_bits a
  let look_for_b := char_to_bits b
  if look_for_b.isNone || look_for_b.isNone then
    Except.ok none
  else
    match look_for_a, look_for_b with
    | some ma, some mb => (indexChars (ma ||| mb)).map some
    | _, _ => Except.error "called Option::unwrap() on a None value"

/-! ### Helper lemmas about the scan -/

theorem findIdxFrom_eq_none_iff (c : Char) (l : List Char) (i : Nat) :
    findIdxFrom c l i = none ↔ c ∉ l := by
  induction l generalizing i with
  | nil => simp [findIdxFrom]
  | cons x xs ih =>
    by_cases hx : c = x
    · simp [findIdxFrom, hx]
    · simp [findIdxFrom, hx, ih]

theorem char_to_bits_eq_none_iff (c : Char) :
    char_to_bits c = none ↔ c ∉ LINE_DRAWING_CHARS :=
  findIdxFrom_eq_none_iff c LINE_DRAWING_CHARS 0

theorem char_to_bits_of_mem (c : Char) (h : c ∈ LINE_DRAWING_CHARS) :
    ∃ m, m < 16 ∧ char_to_bits c = some m ∧ bits_to_char m = Except.ok c := by
  fin_cases h <;> exact ⟨_, by decide, rfl, rfl⟩

theorem char_to_bits_some (c : Char) (m : Nat) (h : char_to_bits c = some m) :
    m < 16 ∧ bits_to_char m = Except.ok c ∧ c ∈ LINE_DRAWING_CHARS := by
  by_cases hmem : c ∈ LINE_DRAWING_CHARS
  · obtain ⟨m', hm', hsome, hbits⟩ := char_to_bits_of_mem c hmem
    rw [h] at hsome
    obtain rfl : m = m' := by injection hsome
    exact ⟨hm', hbits, hmem⟩
  · rw [(char_to_bits_eq_none_iff c).mpr hmem] at h
    cases h

theorem indexChars_of_bits_to_char (m : Nat) (c : Char)
    (hm : m < 16) (h : bits_to_char m = Except.ok c) :
    indexChars m = Except.ok c := by
  rw [bits_to_char, if_neg (by omega)] at h
  exact h

/-- For two masks below 16, their OR stays below 16. -/
theorem lor_lt_sixteen (ma mb : Nat) (ha : ma < 16) (hb : mb < 16) :
    ma ||| mb < 16 := by
  have h : ∀ x < 16, ∀ y < 16, x ||| y < 16 := by decide
  exact h ma ha mb hb

/-- When both inputs are recognized, `stack` reduces to the table lookup at
the OR of the two masks. -/
theorem stack_of_some (a b : Char) (ma mb : Nat)
    (ha : char_to_bits a = some ma) (hb : char_to_bits b = some mb) :
    stack a b = (indexChars (ma ||| mb)).map some := by
  simp [stack, ha, hb]

/-! ### Claim theorems -/

/-- C1: the claim says `stack` returns `none` whenever either input is
unrecognized.  The code violates it: the guard in `stack` tests
`look_for_b` twice and never `look_for_a`, so with an unrecognized left
input and a recognized right input the code reaches
`look_for_a.unwrap()` and panics, while the mirrored pair does return
`none`. -/
theorem stack_left_unrecognized_panics :
    stack 'x' '─' = Except.error "called Option::unwrap() on a None value"
    ∧ stack '─' 'x' = Except.ok none :=
  ⟨rfl, rfl⟩

/-- C2: the claim says `stack` is total and never reaches a panic path.
The code violates it: `stack '@' '│'` (unrecognized left, recognized
right) panics via `Option::unwrap` on `None`. -/
theorem stack_reaches_panic_path :
    stack '@' '│' = Except.error "called Option::unwrap() on a None value" :=
  rfl

/-- C3: `bits_to_char m` fails exactly when `m ≥ 16`, with a message naming
the offending value, and returns a character for every `m ≤ 15`. -/
theorem bits_to_char_fatal_iff (m : Nat) :
    (16 ≤ m → bits_to_char m =
      Except.error ("Bit set must be between 0 and 15 inclusive but got " ++ toString m))
    ∧ (m ≤ 15 → ∃ c, bits_to_char m = Except.ok c) := by
  constructor
  · intro h
    rw [bits_to_char, if_pos h]
  · intro h
    have hm : m < LINE_DRAWING_CHARS.length := by
      have hlen : LINE_DRAWING_CHARS.length = 16 := rfl
      omega
    exact ⟨_, by rw [bits_to_char, if_neg (by omega), indexChars, dif_pos hm]⟩

theorem bits_to_char_fatal_iff_witness :
    bits_to_char 16 =
      Except.error ("Bit set must be between 0 and 15 inclusive but got " ++ toString 16)
    ∧ ∃ c, bits_to_char 0 = Except.ok c :=
  ⟨(bits_to_char_fatal_iff 16).1 (by decide), (bits_to_char_fatal_iff 0).2 (by decide)⟩

/-- C4: the character/mask mapping is a bijection on its domain: every mask
below 16 round-trips through `bits_to_char` then `char_to_bits`, and every
character of the table round-trips through `char_to_bits` then
`bits_to_char`. -/
theorem char_mask_bijection :
    (∀ m : Nat, m < 16 → (bits_to_char m).map char_to_bits = Except.ok (some m))
    ∧ (∀ c ∈ LINE_DRAWING_CHARS, ∃ m, char_to_bits c = some m ∧ bits_to_char m = Except.ok c) := by
  constructor
  · intro m hm
    interval_cases m <;> rfl
  · intro c hc
    obtain ⟨m, _, hsome, hbits⟩ := char_to_bits_of_mem c hc
    exact ⟨m, hsome, hbits⟩

theorem char_mask_bijection_witness :
    (bits_to_char 11).map char_to_bits = Except.ok (some 11)
    ∧ ∃ m, char_to_bits '┬' = some m ∧ bits_to_char m = Except.ok '┬' :=
  ⟨char_mask_bijection.1 11 (by decide), char_mask_bijection.2 '┬' (by decide)⟩

/-- C5: for recognized inputs the OR of the two masks stays below 16, so
the lookup inside `stack` is in bounds and `stack` succeeds with a
character, never reaching the fatal out-of-range path. -/
theorem stack_or_in_bounds (a b : Char) (ma mb : Nat)
    (ha : char_to_bits a = some ma) (hb : char_to_bits b = some mb) :
    ma ||| mb ≤ 15 ∧ ∃ c, stack a b = Except.ok (some c) := by
  obtain ⟨hma, -, -⟩ := char_to_bits_some a ma ha
  obtain ⟨hmb, -, -⟩ := char_to_bits_some b mb hb
  have hor := lor_lt_sixteen ma mb hma hmb
  have hlen : ma ||| mb < LINE_DRAWING_CHARS.length := by
    have h16 : LINE_DRAWING_CHARS.length = 16 := rfl
    omega
  refine ⟨by omega, LINE_DRAWING_CHARS.get ⟨ma ||| mb, hlen⟩, ?_⟩
  rw [stack_of_some a b ma mb ha hb, indexChars, dif_pos hlen]
  rfl

theorem stack_or_in_bounds_witness :
    ((10 : Nat) ||| 5 ≤ 15) ∧ ∃ c, stack '─' '│' = Except.ok (some c) :=
  stack_or_in_bounds '─' '│' 10 5 rfl rfl

/-- C6: `char_to_bits c` returns `some m` with `m ≤ 15` exactly when `c` is
one of the 16 table characters, and `none` for every other character. -/
theorem char_to_bits_domain (c : Char) :
    (∀ m, char_to_bits c = some m → m ≤ 15 ∧ c ∈ LINE_DRAWING_CHARS)
    ∧ (c ∈ LINE_DRAWING_CHARS → ∃ m, char_to_bits c = some m)
    ∧ (c ∉ LINE_DRAWING_CHARS → char_to_bits c = none) := by
  refine ⟨?_, ?_, ?_⟩
  · intro m hm
    obtain ⟨h1, -, h3⟩ := char_to_bits_some c m hm
    exact ⟨by omega, h3⟩
  · intro hc
    obtain ⟨m, -, hsome, -⟩ := char_to_bits_of_mem c hc
    exact ⟨m, hsome⟩
  · exact fun hc => (char_to_bits_eq_none_iff c).mpr hc

theorem char_to_bits_domain_witness :
    ((10 : Nat) ≤ 15 ∧ '─' ∈ LINE_DRAWING_CHARS) ∧ char_to_bits 'x' = none :=
  ⟨(char_to_bits_domain '─').1 10 rfl, (char_to_bits_domain 'x').2.2 (by decide)⟩

/-- C7: `stack` is commutative on recognized characters. -/
theorem stack_comm (a b : Char)
    (ha : a ∈ LINE_DRAWING_CHARS) (hb : b ∈ LINE_DRAWING_CHARS) :
    stack a b = stack b a := by
  obtain ⟨ma, -, hsa, -⟩ := char_to_bits_of_mem a ha
  obtain ⟨mb, -, hsb, -⟩ := char_to_bits_of_mem b hb
  rw [stack_of_some a b ma mb hsa hsb, stack_of_some b a mb ma hsb hsa, Nat.lor_comm]

theorem stack_comm_witness : stack '└' '┐' = stack '┐' '└' :=
  stack_comm '└' '┐' (by decide) (by decide)

/-- C8: the space character is an identity for `stack` on recognized
characters. -/
theorem stack_space_identity (a : Char) (ha : a ∈ LINE_DRAWING_CHARS) :
    stack ' ' a = Except.ok (some a) ∧ stack a ' ' = Except.ok (some a) := by
  obtain ⟨m, hm, hsome, hbits⟩ := char_to_bits_of_mem a ha
  have hsp : char_to_bits ' ' = some 0 := rfl
  have hidx : indexChars m = Except.ok a := indexChars_of_bits_to_char m a hm hbits
  constructor
  · rw [stack_of_some ' ' a 0 m hsp hsome, Nat.zero_or, hidx]
    rfl
  · rw [stack_of_some a ' ' m 0 hsome hsp, Nat.or_zero, hidx]
    rfl

theorem stack_space_identity_witness :
    stack ' ' '└' = Except.ok (some '└') ∧ stack '└' ' ' = Except.ok (some '└') :=
  stack_space_identity '└' (by decide)

/-- C9: `stack` is idempotent on recognized characters. -/
theorem stack_idem (a : Char) (ha : a ∈ LINE_DRAWING_CHARS) :
    stack a a = Except.ok (some a) := by
  obtain ⟨m, hm, hsome, hbits⟩ := char_to_bits_of_mem a ha
  rw [stack_of_some a a m m hsome hsome, Nat.or_self,
    indexChars_of_bits_to_char m a hm hbits]
  rfl

theorem stack_idem_witness : stack '┼' '┼' = Except.ok (some '┼') :=
  stack_idem '┼' (by decide)

/-- C10: the table's boundary and sample points: mask 0 is space, mask 15
is the full cross, mask 0b1011 is `┴`, `┬` has mask 0b1110, and stacking
the horizontal and vertical lines gives the cross. -/
theorem table_boundary_samples :
    bits_to_char 0 = Except.ok ' '
    ∧ bits_to_char 15 = Except.ok '┼'
    ∧ bits_to_char 11 = Except.ok '┴'
    ∧ char_to_bits '┬' = some 14
    ∧ stack '─' '│' = Except.ok (some '┼') :=
  ⟨rfl, rfl, rfl, rfl, rfl⟩

end UnicodeLineStacker
